import Mathlib

/-!
# Verification of the `/languages` aggregation pipeline of `server.js`

Shallow embedding of the language-aggregation core of the service:

* `sumObjectsByKeys` (`server.js:63-70`) — JavaScript objects with string keys
  and numeric values are modelled as insertion-ordered association lists whose
  keys are unique (`LanguageMap`); `object1[property] = (object1[property] || 0)
  + object2[property]` updates an existing key in place and appends a fresh key,
  which is exactly JS property-assignment order semantics for string keys.
* the callback of `getRepoLanguages` (`server.js:98-131`) — the callback is a
  pure function of the transport error, the (possibly absent) HTTP response and
  the body; first `reject`/`resolve` wins, and reading a field of an absent
  response throws, which the embedding records as a `crash` outcome.
* the `/languages` handler (`server.js:231-253`) — `Promise.all` over already
  settled per-repository fetches, rejecting with the first rejection, then the
  merge and the `Object.entries(...).map(...)` reshaping into records.

Numbers are embedded as `Int` (byte counts; overflow is not a concern at these
magnitudes and JS numbers behave as exact integers in this range).
-/

/-- A JavaScript object mapping language names to byte counts, modelled as an
insertion-ordered association list. A genuine JS object has unique keys
(`keysNodup` below); definitions are stated on raw lists and the uniqueness
hypothesis is added only where the JS semantics needs it. -/
abbrev LanguageMap := List (String × Int)

/-- `property in object && object.hasOwnProperty(property)`. -/
def hasKey (m : LanguageMap) (k : String) : Bool :=
  m.any (fun p => p.1 == k)

/-- `object[k] || 0`: the value stored at key `k`, or `0` when absent. -/
def getOr0 : LanguageMap → String → Int
  | [], _ => 0
  | p :: rest, k => if p.1 == k then p.2 else getOr0 rest k

/-- The update applied to one entry of the accumulator when key `k` receives
`v` more bytes: the entry holding `k` gets the value added, others are kept. -/
def bump (k : String) (v : Int) (p : String × Int) : String × Int :=
  if p.1 == k then (p.1, p.2 + v) else p

/-- The assignment `object1[property] = (object1[property] || 0) +
object2[property]` of `sumObjectsByKeys`: an existing key keeps its position
and gets the value added; a fresh key is appended. -/
def addKey (acc : LanguageMap) (k : String) (v : Int) : LanguageMap :=
  if hasKey acc k then
    acc.map (bump k v)
  else
    acc ++ [(k, v)]

/-- The inner `for (let property in object2)` loop of `sumObjectsByKeys`:
fold every own property of `object2` into the accumulator. -/
def mergeInto (acc obj : LanguageMap) : LanguageMap :=
  obj.foldl (fun a p => addKey a p.1 p.2) acc

/-- `sumObjectsByKeys` (`server.js:63-70`): reduce the objects, starting from a
fresh empty accumulator. -/
def sumObjectsByKeys (objects : List LanguageMap) : LanguageMap :=
  objects.foldl mergeInto []

/-- One `{language, value}` record of the `/languages` response body. -/
structure LanguageRecord where
  language : String
  value : Int
deriving DecidableEq

/-- `Object.entries(languageData).map(([key, value]) => ({language: key, value}))`
(`server.js:240-245`). -/
def toRecords (m : LanguageMap) : List LanguageRecord :=
  m.map (fun p => { language := p.1, value := p.2 })

/-- The HTTP failure response produced by `formatErrorResponse`
(`server.js:51-61`): status code, content type and plain-text body. -/
structure ErrorResponse where
  code : Nat
  contentType : String
  body : String
deriving DecidableEq

/-- `formatErrorResponse` (`server.js:51-61`): sets the status code (default
`500`), the content type (default `text/plain`), and ends the response with
`message + (repo ? ' for repo "' + repo + '"' : "")`. Defaults are passed
explicitly at call sites. -/
def formatErrorResponse (message : String) (repo : Option String)
    (code : Nat) (contentType : String) : ErrorResponse :=
  { code := code
    contentType := contentType
    body := message ++ (match repo with
      | some r => " for repo \"" ++ r ++ "\""
      | none => "") }

/-- An upstream HTTP response as seen by a request callback: status code and
raw body text. -/
structure HttpResponse where
  statusCode : Nat
  body : String
deriving DecidableEq

/-- How a promise settles: `resolve(body)` with the (parsed) language map, or
`reject(e)` with the formatted error response. -/
inductive Settle where
  | resolved (body : LanguageMap)
  | rejected (e : ErrorResponse)
deriving DecidableEq

/-- Whether a settled promise was fulfilled. -/
def Settle.isResolved : Settle → Bool
  | .resolved _ => true
  | .rejected _ => false

/-- The outcome of running a request callback: either it ran to completion and
the promise settled as recorded, or it threw (a `TypeError` from reading a
field of an absent response) after possibly settling the promise first. -/
inductive Outcome where
  | ok (s : Settle)
  | crash (s : Option Settle)
deriving DecidableEq

/-- The callback of `getRepoLanguages` (`server.js:98-131`). The `if (error)`
branch calls `reject` but does not `return`, so execution continues into
`if (response.statusCode === 404)`; when the transport error left `response`
absent that read throws. The first `reject`/`resolve` call wins, so a later
settle is a no-op (`Option.getD`). The success body is carried already parsed
(`JSON.parse` of a language-map JSON object is modelled as the identity on the
structured value). -/
def getRepoLanguagesCallback (repo : String) (err : Option String)
    (response : Option HttpResponse) (body : LanguageMap) : Outcome :=
  let afterError : Option Settle :=
    err.map (fun e => .rejected (formatErrorResponse e (some repo) 500 "text/plain"))
  match response with
  | none => .crash afterError
  | some r =>
    if r.statusCode == 404 then
      .ok (afterError.getD
        (.rejected (formatErrorResponse "languages not found" (some repo) 404 "text/plain")))
    else if r.statusCode != 200 then
      .ok (afterError.getD
        (.rejected (formatErrorResponse r.body (some repo) r.statusCode "text/html")))
    else
      .ok (afterError.getD (.resolved body))

/-- `Promise.all` over a list of already-settled promises (`server.js:234-236`):
fulfil with the list of bodies when every child fulfilled, otherwise reject
with the first rejection. -/
def promiseAll : List Settle → Except ErrorResponse (List LanguageMap)
  | [] => .ok []
  | .resolved m :: rest => (promiseAll rest).map (fun l => m :: l)
  | .rejected e :: _ => .error e

/-- The aggregation of `app.get("/languages")` (`server.js:231-253`) after the
per-repository fetches settled: join them, merge the maps and reshape into
records; any child rejection makes the whole response the (first) failure. -/
def languagesHandler (settles : List Settle) : Except ErrorResponse (List LanguageRecord) :=
  (promiseAll settles).map (fun maps => toRecords (sumObjectsByKeys maps))

/-- A heap for the `reduce` of `sumObjectsByKeys`: the input objects (by
reference) and the accumulator object created fresh by the initial `{}`. -/
structure Store where
  objs : List LanguageMap
  acc : LanguageMap
deriving DecidableEq

/-- One step of the `reduce` (`server.js:64-69`): the only assignment in the
loop body targets `object1`, which is always the accumulator (the reduce starts
from a fresh `{}`), so the step writes `acc` and leaves `objs` untouched while
reading the current input object. -/
def reduceStep (s : Store) (obj : LanguageMap) : Store :=
  { s with acc := mergeInto s.acc obj }

/-- Running the whole `reduce` of `sumObjectsByKeys` over the store holding the
input objects. -/
def runMerge (inputs : List LanguageMap) : Store :=
  inputs.foldl reduceStep { objs := inputs, acc := [] }

/-- The keys of a map, in insertion order. -/
def keysOf (m : LanguageMap) : List String :=
  m.map Prod.fst

/-- Sum of all values of a map. -/
def sumVals (m : LanguageMap) : Int :=
  (m.map Prod.snd).sum

/-- Sum of the values stored at key `k` (a map with unique keys has at most
one such entry). -/
def keySum (m : LanguageMap) (k : String) : Int :=
  ((m.filter (fun p => p.1 == k)).map Prod.snd).sum

/-- Uniqueness of keys: what being a genuine JS object guarantees. -/
def keysNodup (m : LanguageMap) : Prop :=
  (m.map Prod.fst).Nodup

instance keysNodupDecidable (m : LanguageMap) : Decidable (keysNodup m) :=
  inferInstanceAs (Decidable ((m.map Prod.fst).Nodup))

/-- Append a key if it is not present yet. -/
def insertNew (acc : List String) (k : String) : List String :=
  if k ∈ acc then acc else acc ++ [k]

/-- Modelled from the spec: the first-seen insertion order of a key sequence —
each key listed at the position of its first occurrence. The spec's
characterization of the `/languages` output ordering, to be compared with the
order `sumObjectsByKeys` actually produces. -/
def firstSeen (ks : List String) : List String :=
  ks.foldl insertNew []

/-! ## Helper lemmas about keys and lookups -/

theorem beq_swap (a b : String) : (a == b) = (b == a) := by
  cases h : a == b with
  | false =>
    cases h2 : b == a with
    | false => rfl
    | true =>
      have h3 : (a == b) = true := beq_iff_eq.mpr (beq_iff_eq.mp h2).symm
      rw [h] at h3
      exact absurd h3 Bool.false_ne_true
  | true => exact (beq_iff_eq.mpr (beq_iff_eq.mp h).symm).symm

theorem hasKey_nil (k : String) : hasKey [] k = false := rfl

theorem hasKey_cons (p : String × Int) (rest : LanguageMap) (k : String) :
    hasKey (p :: rest) k = (p.1 == k || hasKey rest k) := by
  simp [hasKey, List.any_cons]

theorem hasKey_append (m m' : LanguageMap) (k : String) :
    hasKey (m ++ m') k = (hasKey m k || hasKey m' k) := by
  simp [hasKey, List.any_append]

theorem hasKey_iff_mem_keysOf (m : LanguageMap) (k : String) :
    hasKey m k = true ↔ k ∈ keysOf m := by
  induction m with
  | nil => simp [hasKey_nil, keysOf]
  | cons p rest ih =>
    rw [hasKey_cons, keysOf, List.map_cons, List.mem_cons, Bool.or_eq_true, ih]
    constructor
    · rintro (h | h)
      · exact Or.inl (beq_iff_eq.mp h).symm
      · exact Or.inr h
    · rintro (h | h)
      · exact Or.inl (beq_iff_eq.mpr h.symm)
      · exact Or.inr h

theorem getOr0_nil (k : String) : getOr0 [] k = 0 := rfl

theorem getOr0_cons (p : String × Int) (rest : LanguageMap) (k : String) :
    getOr0 (p :: rest) k = if p.1 == k then p.2 else getOr0 rest k := rfl

theorem getOr0_eq_zero_of_not_hasKey (m : LanguageMap) (k : String)
    (h : hasKey m k = false) : getOr0 m k = 0 := by
  induction m with
  | nil => rfl
  | cons p rest ih =>
    rw [hasKey_cons] at h
    rcases Bool.or_eq_false_iff.mp h with ⟨h1, h2⟩
    rw [getOr0_cons, h1]
    simpa using ih h2

theorem keySum_cons (p : String × Int) (rest : LanguageMap) (k : String) :
    keySum (p :: rest) k = (if p.1 == k then p.2 else 0) + keySum rest k := by
  by_cases h : p.1 == k
  · simp [keySum, List.filter_cons, h]
  · simp [keySum, List.filter_cons, h]

theorem keySum_eq_zero_of_not_hasKey (m : LanguageMap) (k : String)
    (h : hasKey m k = false) : keySum m k = 0 := by
  induction m with
  | nil => rfl
  | cons p rest ih =>
    rw [hasKey_cons] at h
    rcases Bool.or_eq_false_iff.mp h with ⟨h1, h2⟩
    rw [keySum_cons, h1]
    simpa using ih h2

theorem keySum_eq_getOr0_of_keysNodup (m : LanguageMap) (k : String)
    (h : keysNodup m) : keySum m k = getOr0 m k := by
  induction m with
  | nil => rfl
  | cons p rest ih =>
    rw [keysNodup, List.map_cons, List.nodup_cons] at h
    rw [keySum_cons, getOr0_cons]
    cases hp : p.1 == k with
    | false => simpa using ih h.2
    | true =>
      have hk : p.1 = k := beq_iff_eq.mp hp
      have hnot : hasKey rest k = false := by
        cases hres : hasKey rest k with
        | false => rfl
        | true =>
          exact absurd (hk ▸ (hasKey_iff_mem_keysOf rest k).mp hres) h.1
      simp [keySum_eq_zero_of_not_hasKey rest k hnot]

theorem bump_fst (k : String) (v : Int) (p : String × Int) :
    (bump k v p).1 = p.1 := by
  by_cases h : p.1 == k <;> simp [bump, h]

theorem keysOf_map_bump (m : LanguageMap) (k : String) (v : Int) :
    keysOf (m.map (bump k v)) = keysOf m := by
  induction m with
  | nil => rfl
  | cons p rest ih =>
    rw [List.map_cons, keysOf, List.map_cons, bump_fst]
    rw [keysOf] at ih
    rw [ih]
    rfl

theorem hasKey_map_bump (m : LanguageMap) (k : String) (v : Int) (k' : String) :
    hasKey (m.map (bump k v)) k' = hasKey m k' := by
  induction m with
  | nil => rfl
  | cons p rest ih =>
    rw [List.map_cons, hasKey_cons, hasKey_cons, bump_fst, ih]

theorem getOr0_map_bump_of_ne (acc : LanguageMap) (k k' : String) (v : Int)
    (h : (k' == k) = false) :
    getOr0 (acc.map (bump k v)) k' = getOr0 acc k' := by
  induction acc with
  | nil => rfl
  | cons p rest ih =>
    cases hp : p.1 == k with
    | false =>
      have hb : bump k v p = p := by simp [bump, hp]
      rw [List.map_cons, hb, getOr0_cons, getOr0_cons, ih]
    | true =>
      have hb : bump k v p = (p.1, p.2 + v) := by simp [bump, hp]
      have hpk' : (p.1 == k') = false := by
        cases hq : p.1 == k' with
        | false => rfl
        | true =>
          have h3 : (k' == k) = true :=
            beq_iff_eq.mpr ((beq_iff_eq.mp hq).symm.trans (beq_iff_eq.mp hp))
          rw [h] at h3
          exact absurd h3 Bool.false_ne_true
      rw [List.map_cons, hb, getOr0_cons, getOr0_cons]
      simp only [hpk']
      exact ih

theorem getOr0_map_bump_self (acc : LanguageMap) (k : String) (v : Int)
    (h : hasKey acc k = true) :
    getOr0 (acc.map (bump k v)) k = getOr0 acc k + v := by
  induction acc with
  | nil => exact absurd h Bool.false_ne_true
  | cons p rest ih =>
    cases hp : p.1 == k with
    | false =>
      have hb : bump k v p = p := by simp [bump, hp]
      have hrest : hasKey rest k = true := by
        rw [hasKey_cons, hp, Bool.false_or] at h
        exact h
      rw [List.map_cons, hb, getOr0_cons, getOr0_cons]
      simp only [hp]
      simpa using ih hrest
    | true =>
      have hb : bump k v p = (p.1, p.2 + v) := by simp [bump, hp]
      rw [List.map_cons, hb, getOr0_cons, getOr0_cons]
      simp [hp]

theorem getOr0_append_single (acc : LanguageMap) (k k' : String) (v : Int)
    (h : hasKey acc k = false) :
    getOr0 (acc ++ [(k, v)]) k' = getOr0 acc k' + (if k' == k then v else 0) := by
  induction acc with
  | nil =>
    rw [List.nil_append, getOr0_cons, getOr0_nil, beq_swap k k']
    cases hkk : k' == k <;> simp
  | cons p rest ih =>
    rw [hasKey_cons] at h
    rcases Bool.or_eq_false_iff.mp h with ⟨h1, h2⟩
    rw [List.cons_append, getOr0_cons, getOr0_cons]
    cases hq : p.1 == k' with
    | false =>
      simp only [hq, Bool.false_eq_true, if_false]
      exact ih h2
    | true =>
      have hkk : (k' == k) = false := by
        cases hkk2 : k' == k with
        | false => rfl
        | true =>
          have h3 : (p.1 == k) = true :=
            beq_iff_eq.mpr ((beq_iff_eq.mp hq).trans (beq_iff_eq.mp hkk2))
          rw [h1] at h3
          exact absurd h3 Bool.false_ne_true
      simp [hq, hkk]

theorem getOr0_addKey (acc : LanguageMap) (k k' : String) (v : Int) :
    getOr0 (addKey acc k v) k' = getOr0 acc k' + (if k' == k then v else 0) := by
  cases hk : hasKey acc k with
  | false =>
    have hform : addKey acc k v = acc ++ [(k, v)] := by
      rw [addKey, hk]
      simp
    rw [hform]
    exact getOr0_append_single acc k k' v hk
  | true =>
    have hform : addKey acc k v = acc.map (bump k v) := by
      rw [addKey, hk]
      simp
    rw [hform]
    cases hkk : k' == k with
    | false => rw [getOr0_map_bump_of_ne acc k k' v hkk]; simp
    | true =>
      have hsub : k' = k := beq_iff_eq.mp hkk
      subst hsub
      rw [getOr0_map_bump_self acc k' v hk]
      simp

theorem keysOf_addKey (acc : LanguageMap) (k : String) (v : Int) :
    keysOf (addKey acc k v) = insertNew (keysOf acc) k := by
  cases hk : hasKey acc k with
  | true =>
    have hform : addKey acc k v = acc.map (bump k v) := by
      rw [addKey, hk]
      simp
    have hmem : k ∈ keysOf acc := (hasKey_iff_mem_keysOf acc k).mp hk
    rw [hform, keysOf_map_bump, insertNew, if_pos hmem]
  | false =>
    have hform : addKey acc k v = acc ++ [(k, v)] := by
      rw [addKey, hk]
      simp
    have hmem : k ∉ keysOf acc := fun hm =>
      absurd ((hasKey_iff_mem_keysOf acc k).mpr hm) (by rw [hk]; exact Bool.false_ne_true)
    rw [hform, keysOf, List.map_append, insertNew, if_neg hmem]
    rfl

theorem keysNodup_addKey (acc : LanguageMap) (k : String) (v : Int)
    (h : keysNodup acc) : keysNodup (addKey acc k v) := by
  rw [keysNodup] at *
  rw [show (addKey acc k v).map Prod.fst = keysOf (addKey acc k v) from rfl, keysOf_addKey]
  rw [insertNew]
  by_cases hm : k ∈ keysOf acc
  · rw [if_pos hm]
    exact h
  · rw [if_neg hm]
    rw [List.nodup_append]
    refine ⟨h, List.nodup_singleton k, ?_⟩
    intro a ha hak
    rw [List.mem_singleton] at hak
    exact hm (hak ▸ ha)

theorem map_bump_id_of_not_hasKey (m : LanguageMap) (k : String) (v : Int)
    (h : hasKey m k = false) : m.map (bump k v) = m := by
  induction m with
  | nil => rfl
  | cons p rest ih =>
    rw [hasKey_cons] at h
    rcases Bool.or_eq_false_iff.mp h with ⟨h1, h2⟩
    have hb : bump k v p = p := by simp [bump, h1]
    rw [List.map_cons, hb, ih h2]

theorem sumVals_nil : sumVals [] = 0 := rfl

theorem sumVals_cons (p : String × Int) (rest : LanguageMap) :
    sumVals (p :: rest) = p.2 + sumVals rest := by
  simp [sumVals]

theorem sumVals_map_bump (acc : LanguageMap) (k : String) (v : Int)
    (h1 : hasKey acc k = true) (h2 : keysNodup acc) :
    sumVals (acc.map (bump k v)) = sumVals acc + v := by
  induction acc with
  | nil => exact absurd h1 Bool.false_ne_true
  | cons p rest ih =>
    rw [keysNodup, List.map_cons, List.nodup_cons] at h2
    cases hp : p.1 == k with
    | true =>
      have hb : bump k v p = (p.1, p.2 + v) := by simp [bump, hp]
      have hrest : hasKey rest k = false := by
        cases hres : hasKey rest k with
        | false => rfl
        | true =>
          have hmem : k ∈ keysOf rest := (hasKey_iff_mem_keysOf rest k).mp hres
          exact absurd ((beq_iff_eq.mp hp) ▸ hmem) h2.1
      rw [List.map_cons, hb, map_bump_id_of_not_hasKey rest k v hrest,
        sumVals_cons, sumVals_cons]
      ring
    | false =>
      have hb : bump k v p = p := by simp [bump, hp]
      have hrest : hasKey rest k = true := by
        rw [hasKey_cons, hp, Bool.false_or] at h1
        exact h1
      rw [List.map_cons, hb, sumVals_cons, sumVals_cons, ih hrest h2.2]
      ring

theorem sumVals_addKey (acc : LanguageMap) (k : String) (v : Int)
    (h : keysNodup acc) : sumVals (addKey acc k v) = sumVals acc + v := by
  cases hk : hasKey acc k with
  | true =>
    have hform : addKey acc k v = acc.map (bump k v) := by
      rw [addKey, hk]
      simp
    rw [hform]
    exact sumVals_map_bump acc k v hk h
  | false =>
    have hform : addKey acc k v = acc ++ [(k, v)] := by
      rw [addKey, hk]
      simp
    rw [hform]
    simp [sumVals, List.map_append]

theorem hasKey_addKey (acc : LanguageMap) (k k' : String) (v : Int) :
    hasKey (addKey acc k v) k' = (hasKey acc k' || (k' == k)) := by
  cases hk : hasKey acc k with
  | false =>
    have hform : addKey acc k v = acc ++ [(k, v)] := by
      rw [addKey, hk]
      simp
    rw [hform, hasKey_append, hasKey_cons, hasKey_nil, beq_swap k k']
    simp
  | true =>
    have hform : addKey acc k v = acc.map (bump k v) := by
      rw [addKey, hk]
      simp
    rw [hform, hasKey_map_bump]
    cases hkk : k' == k with
    | false => simp
    | true =>
      have hsub : k' = k := beq_iff_eq.mp hkk
      subst hsub
      rw [hk]
      simp


/-! ## Lemmas about `mergeInto` and `sumObjectsByKeys` -/

theorem mergeInto_nil (acc : LanguageMap) : mergeInto acc [] = acc := rfl

theorem mergeInto_cons (acc : LanguageMap) (p : String × Int) (rest : LanguageMap) :
    mergeInto acc (p :: rest) = mergeInto (addKey acc p.1 p.2) rest := rfl

theorem getOr0_mergeInto (obj acc : LanguageMap) (k : String) :
    getOr0 (mergeInto acc obj) k = getOr0 acc k + keySum obj k := by
  induction obj generalizing acc with
  | nil => simp [mergeInto_nil, keySum]
  | cons p rest ih =>
    rw [mergeInto_cons, ih (addKey acc p.1 p.2), getOr0_addKey, keySum_cons,
      beq_swap k p.1]
    ring

theorem hasKey_mergeInto (obj acc : LanguageMap) (k : String) :
    hasKey (mergeInto acc obj) k = (hasKey acc k || hasKey obj k) := by
  induction obj generalizing acc with
  | nil => simp [mergeInto_nil, hasKey_nil]
  | cons p rest ih =>
    rw [mergeInto_cons, ih (addKey acc p.1 p.2), hasKey_addKey, hasKey_cons,
      beq_swap k p.1, Bool.or_assoc]

theorem keysNodup_mergeInto (obj acc : LanguageMap) (h : keysNodup acc) :
    keysNodup (mergeInto acc obj) := by
  induction obj generalizing acc with
  | nil => exact h
  | cons p rest ih =>
    rw [mergeInto_cons]
    exact ih (addKey acc p.1 p.2) (keysNodup_addKey acc p.1 p.2 h)

theorem sumVals_mergeInto (obj acc : LanguageMap) (h : keysNodup acc) :
    sumVals (mergeInto acc obj) = sumVals acc + sumVals obj := by
  induction obj generalizing acc with
  | nil => simp [mergeInto_nil, sumVals_nil]
  | cons p rest ih =>
    rw [mergeInto_cons, ih (addKey acc p.1 p.2) (keysNodup_addKey acc p.1 p.2 h),
      sumVals_addKey acc p.1 p.2 h, sumVals_cons]
    ring

theorem keysOf_mergeInto (obj acc : LanguageMap) :
    keysOf (mergeInto acc obj) = (keysOf obj).foldl insertNew (keysOf acc) := by
  induction obj generalizing acc with
  | nil => rfl
  | cons p rest ih =>
    rw [mergeInto_cons, ih (addKey acc p.1 p.2), keysOf_addKey]
    rfl

theorem getOr0_foldl_mergeInto (ms : List LanguageMap) (acc : LanguageMap) (k : String) :
    getOr0 (ms.foldl mergeInto acc) k =
      getOr0 acc k + (ms.map (fun m => keySum m k)).sum := by
  induction ms generalizing acc with
  | nil => simp
  | cons m rest ih =>
    rw [List.foldl_cons, ih (mergeInto acc m), getOr0_mergeInto, List.map_cons,
      List.sum_cons]
    ring

theorem getOr0_sumObjectsByKeys (ms : List LanguageMap) (k : String) :
    getOr0 (sumObjectsByKeys ms) k = (ms.map (fun m => keySum m k)).sum := by
  rw [show sumObjectsByKeys ms = ms.foldl mergeInto [] from rfl,
    getOr0_foldl_mergeInto, getOr0_nil, zero_add]

theorem hasKey_foldl_mergeInto (ms : List LanguageMap) (acc : LanguageMap) (k : String) :
    hasKey (ms.foldl mergeInto acc) k =
      (hasKey acc k || ms.any (fun m => hasKey m k)) := by
  induction ms generalizing acc with
  | nil => simp
  | cons m rest ih =>
    rw [List.foldl_cons, ih (mergeInto acc m), hasKey_mergeInto, List.any_cons,
      Bool.or_assoc]

theorem hasKey_sumObjectsByKeys (ms : List LanguageMap) (k : String) :
    hasKey (sumObjectsByKeys ms) k = ms.any (fun m => hasKey m k) := by
  rw [show sumObjectsByKeys ms = ms.foldl mergeInto [] from rfl,
    hasKey_foldl_mergeInto, hasKey_nil, Bool.false_or]

theorem keysNodup_foldl_mergeInto (ms : List LanguageMap) (acc : LanguageMap)
    (h : keysNodup acc) : keysNodup (ms.foldl mergeInto acc) := by
  induction ms generalizing acc with
  | nil => exact h
  | cons m rest ih =>
    rw [List.foldl_cons]
    exact ih (mergeInto acc m) (keysNodup_mergeInto m acc h)

theorem sumVals_foldl_mergeInto (ms : List LanguageMap) (acc : LanguageMap)
    (h : keysNodup acc) :
    sumVals (ms.foldl mergeInto acc) = sumVals acc + (ms.map sumVals).sum := by
  induction ms generalizing acc with
  | nil => simp
  | cons m rest ih =>
    rw [List.foldl_cons, ih (mergeInto acc m) (keysNodup_mergeInto m acc h),
      sumVals_mergeInto m acc h, List.map_cons, List.sum_cons]
    ring

theorem sumVals_sumObjectsByKeys (ms : List LanguageMap) :
    sumVals (sumObjectsByKeys ms) = (ms.map sumVals).sum := by
  rw [show sumObjectsByKeys ms = ms.foldl mergeInto [] from rfl,
    sumVals_foldl_mergeInto ms [] List.nodup_nil, sumVals_nil, zero_add]

theorem keysOf_foldl_mergeInto (ms : List LanguageMap) (acc : LanguageMap) :
    keysOf (ms.foldl mergeInto acc) =
      (ms.map keysOf).foldl (fun a ks => ks.foldl insertNew a) (keysOf acc) := by
  induction ms generalizing acc with
  | nil => rfl
  | cons m rest ih =>
    rw [List.foldl_cons, ih (mergeInto acc m), keysOf_mergeInto, List.map_cons,
      List.foldl_cons]

theorem foldl_insertNew_flatten (L : List (List String)) (a : List String) :
    L.flatten.foldl insertNew a = L.foldl (fun a ks => ks.foldl insertNew a) a := by
  induction L generalizing a with
  | nil => rfl
  | cons l rest ih =>
    rw [List.flatten_cons, List.foldl_append, List.foldl_cons, ih]

theorem any_eq_of_perm {α : Type} (f : α → Bool) {l l' : List α} (h : l.Perm l') :
    l.any f = l'.any f := by
  cases ha : l.any f with
  | true =>
    rcases List.any_eq_true.mp ha with ⟨x, hx, hfx⟩
    exact (List.any_eq_true.mpr ⟨x, h.mem_iff.mp hx, hfx⟩).symm
  | false =>
    cases hb : l'.any f with
    | false => rfl
    | true =>
      rcases List.any_eq_true.mp hb with ⟨x, hx, hfx⟩
      have h2 := List.any_eq_true.mpr ⟨x, h.mem_iff.mpr hx, hfx⟩
      rw [ha] at h2
      exact h2

theorem promiseAll_first_rejection (pre post : List Settle) (e : ErrorResponse)
    (h : ∀ s ∈ pre, s.isResolved = true) :
    promiseAll (pre ++ Settle.rejected e :: post) = Except.error e := by
  induction pre with
  | nil => rfl
  | cons s rest ih =>
    cases s with
    | rejected e2 =>
      have hs := h _ (List.mem_cons_self _ _)
      simp [Settle.isResolved] at hs
    | resolved m =>
      rw [List.cons_append,
        show promiseAll (Settle.resolved m :: (rest ++ Settle.rejected e :: post)) =
          (promiseAll (rest ++ Settle.rejected e :: post)).map (fun l => m :: l) from rfl,
        ih (fun s hs2 => h s (List.mem_cons_of_mem _ hs2))]
      rfl

theorem nonneg_addKey (acc : LanguageMap) (k : String) (v : Int)
    (hacc : ∀ p ∈ acc, 0 ≤ p.2) (hv : 0 ≤ v) :
    ∀ p ∈ addKey acc k v, 0 ≤ p.2 := by
  intro p hp
  rw [addKey] at hp
  by_cases hk : hasKey acc k
  · rw [if_pos hk] at hp
    rcases List.mem_map.mp hp with ⟨q, hq, rfl⟩
    cases hq2 : q.1 == k with
    | true =>
      have hb : bump k v q = (q.1, q.2 + v) := by simp [bump, hq2]
      rw [hb]
      exact add_nonneg (hacc q hq) hv
    | false =>
      have hb : bump k v q = q := by simp [bump, hq2]
      rw [hb]
      exact hacc q hq
  · rw [if_neg hk] at hp
    rcases List.mem_append.mp hp with hp | hp
    · exact hacc p hp
    · rw [List.mem_singleton] at hp
      subst hp
      exact hv

theorem nonneg_mergeInto (obj acc : LanguageMap)
    (hacc : ∀ p ∈ acc, 0 ≤ p.2) (hobj : ∀ p ∈ obj, 0 ≤ p.2) :
    ∀ p ∈ mergeInto acc obj, 0 ≤ p.2 := by
  induction obj generalizing acc with
  | nil => exact hacc
  | cons q rest ih =>
    rw [mergeInto_cons]
    exact ih (addKey acc q.1 q.2)
      (nonneg_addKey acc q.1 q.2 hacc (hobj q (List.mem_cons_self _ _)))
      (fun p hp => hobj p (List.mem_cons_of_mem _ hp))

theorem nonneg_sumObjectsByKeys (ms : List LanguageMap)
    (h : ∀ m ∈ ms, ∀ p ∈ m, 0 ≤ p.2) :
    ∀ p ∈ sumObjectsByKeys ms, 0 ≤ p.2 := by
  rw [show sumObjectsByKeys ms = ms.foldl mergeInto [] from rfl]
  have hgen : ∀ (l : List LanguageMap) (acc : LanguageMap),
      (∀ m ∈ l, ∀ p ∈ m, 0 ≤ p.2) → (∀ p ∈ acc, 0 ≤ p.2) →
      ∀ p ∈ l.foldl mergeInto acc, 0 ≤ p.2 := by
    intro l
    induction l with
    | nil => intro acc _ hacc; exact hacc
    | cons m rest ih =>
      intro acc hl hacc
      rw [List.foldl_cons]
      exact ih (mergeInto acc m)
        (fun m2 hm2 => hl m2 (List.mem_cons_of_mem _ hm2))
        (nonneg_mergeInto m acc hacc (hl m (List.mem_cons_self _ _)))
  exact hgen ms [] h (fun p hp => absurd hp (List.not_mem_nil p))

/-! ## The claims -/

/-- **C1** Merge correctness: for every finite sequence of `LanguageMap`s (each
with the unique keys a JS object guarantees), the aggregated totals satisfy
`totals[lang] = sum of mi[lang] over all i such that lang is a key of mi`, for
every language that appears in at least one of the maps. -/
theorem sumObjectsByKeys_merge_correct (ms : List LanguageMap) (lang : String)
    (hnodup : ∀ m ∈ ms, keysNodup m)
    (_happears : ∃ m ∈ ms, hasKey m lang = true) :
    getOr0 (sumObjectsByKeys ms) lang =
      (ms.map (fun m => if hasKey m lang then getOr0 m lang else 0)).sum := by
  rw [getOr0_sumObjectsByKeys]
  congr 1
  apply List.map_congr_left
  intro m hm
  cases hk : hasKey m lang with
  | false =>
    rw [keySum_eq_zero_of_not_hasKey m lang hk]
    rfl
  | true =>
    rw [keySum_eq_getOr0_of_keysNodup m lang (hnodup m hm)]
    rfl

/-- Witness for C1 at the spec's own two-repository example. -/
theorem sumObjectsByKeys_merge_correct_witness :
    (∀ m ∈ [[("Go", (100 : Int)), ("Rust", 50)], [("Go", 20)]], keysNodup m) ∧
    (∃ m ∈ [[("Go", (100 : Int)), ("Rust", 50)], [("Go", 20)]], hasKey m "Go" = true) ∧
    getOr0 (sumObjectsByKeys [[("Go", (100 : Int)), ("Rust", 50)], [("Go", 20)]]) "Go" =
      ([[("Go", (100 : Int)), ("Rust", 50)], [("Go", 20)]].map
        (fun m => if hasKey m "Go" then getOr0 m "Go" else 0)).sum :=
  ⟨by decide, by decide,
    sumObjectsByKeys_merge_correct [[("Go", 100), ("Rust", 50)], [("Go", 20)]] "Go"
      (by decide) (by decide)⟩

/-- **C2** Fail-fast propagation: if at least one per-repository language fetch
fails, `/languages` resolves to the failure response of the first error
encountered (the `ErrorResponse` already carries that fetch's status code and
the repo-name suffix in its body), never to a partial-data success. -/
theorem languages_fail_fast (pre post : List Settle) (e : ErrorResponse)
    (h : ∀ s ∈ pre, s.isResolved = true) :
    languagesHandler (pre ++ Settle.rejected e :: post) = Except.error e := by
  simp only [languagesHandler, promiseAll_first_rejection pre post e h]
  rfl

/-- Witness for C2: a 404 failure for repository `empty-repo` in the middle of
two successful fetches fails the whole aggregation with that error. -/
theorem languages_fail_fast_witness :
    (∀ s ∈ [Settle.resolved [("Go", (100 : Int))]], s.isResolved = true) ∧
    languagesHandler (
        [Settle.resolved [("Go", (100 : Int))]] ++
        Settle.rejected
          { code := 404, contentType := "text/plain",
            body := "languages not found for repo \"empty-repo\"" } ::
        [Settle.resolved [("Rust", (50 : Int))]]) =
      Except.error
        { code := 404, contentType := "text/plain",
          body := "languages not found for repo \"empty-repo\"" } :=
  ⟨by decide,
    languages_fail_fast [Settle.resolved [("Go", 100)]]
      [Settle.resolved [("Rust", 50)]]
      { code := 404, contentType := "text/plain",
        body := "languages not found for repo \"empty-repo\"" }
      (by decide)⟩

/-- **C3** Merge commutativity: merging two permutations of the same multiset
of maps yields totals equal as key-to-value mappings — the same keys and the
same summed value at every key; only the ordering of the output may differ. -/
theorem sumObjectsByKeys_perm_invariant (ms ms' : List LanguageMap)
    (h : ms.Perm ms') :
    (∀ k, getOr0 (sumObjectsByKeys ms) k = getOr0 (sumObjectsByKeys ms') k) ∧
    (∀ k, hasKey (sumObjectsByKeys ms) k = hasKey (sumObjectsByKeys ms') k) := by
  constructor
  · intro k
    rw [getOr0_sumObjectsByKeys, getOr0_sumObjectsByKeys]
    exact List.Perm.sum_eq (h.map (fun m => keySum m k))
  · intro k
    rw [hasKey_sumObjectsByKeys, hasKey_sumObjectsByKeys]
    exact any_eq_of_perm (fun m => hasKey m k) h

/-- Witness for C3: swapping the arrival order of two repositories leaves the
total for every language unchanged — checked at "Go". -/
theorem sumObjectsByKeys_perm_invariant_witness :
    ([[("Go", (100 : Int)), ("Rust", 50)], [("Go", 20)]].Perm
      [[("Go", (20 : Int))], [("Go", 100), ("Rust", 50)]]) ∧
    getOr0 (sumObjectsByKeys [[("Go", (100 : Int)), ("Rust", 50)], [("Go", 20)]]) "Go" =
      getOr0 (sumObjectsByKeys [[("Go", (20 : Int))], [("Go", 100), ("Rust", 50)]]) "Go" :=
  ⟨by decide,
    (sumObjectsByKeys_perm_invariant
      [[("Go", 100), ("Rust", 50)], [("Go", 20)]]
      [[("Go", 20)], [("Go", 100), ("Rust", 50)]] (by decide)).1 "Go"⟩

/-- **C4** Empty input: aggregating zero repositories produces the empty record
list as a success (`Except.ok`), not an error; the merge of no maps is the
empty totals object. -/
theorem languages_empty_input :
    languagesHandler [] = Except.ok ([] : List LanguageRecord) ∧
    sumObjectsByKeys [] = [] :=
  ⟨rfl, rfl⟩

/-- **C5** 404 mapping: for every repository name, a 404 upstream status (with
no transport error) makes the fetch reject with code 404, content type
`text/plain`, and body `"languages not found"` with the literal suffix
`' for repo "{repo}"'` appended. -/
theorem getRepoLanguages_404_mapping (repo rbody : String) (body : LanguageMap) :
    getRepoLanguagesCallback repo none (some { statusCode := 404, body := rbody }) body =
      Outcome.ok (Settle.rejected
        { code := 404, contentType := "text/plain",
          body := "languages not found" ++ (" for repo \"" ++ repo ++ "\"") }) :=
  rfl

/-- **C6** (code bug) Transport-error mapping: on a transport error with no
response available, the promise is rejected with the 500 error carrying the
transport message and the repo suffix, but — the `if (error)` branch not
returning — the callback then reads `statusCode` of the absent response and
throws: the outcome is a crash, not a clean error mapping. Evaluated at the
concrete failing input `repo = "my-repo"`, error `"connect ECONNREFUSED"`. -/
theorem getRepoLanguages_transport_crash :
    getRepoLanguagesCallback "my-repo" (some "connect ECONNREFUSED") none [] =
      Outcome.crash (some (Settle.rejected
        { code := 500, contentType := "text/plain",
          body := "connect ECONNREFUSED for repo \"my-repo\"" })) := by
  decide

/-- **C7** No language dropped and sum preservation: the merged totals contain
exactly the languages occurring in some input map, and the grand total of all
merged values equals the sum over all input maps of all their byte counts. -/
theorem sumObjectsByKeys_keys_and_sum (ms : List LanguageMap) :
    (∀ k, hasKey (sumObjectsByKeys ms) k = true ↔ ∃ m ∈ ms, hasKey m k = true) ∧
    sumVals (sumObjectsByKeys ms) = (ms.map sumVals).sum := by
  constructor
  · intro k
    rw [hasKey_sumObjectsByKeys]
    exact List.any_eq_true
  · exact sumVals_sumObjectsByKeys ms

/-- **C8** Output ordering: the `/languages` records appear in the first-seen
insertion order of the languages across the maps in arrival order — the record
keys are exactly the first occurrences of the keys of all maps concatenated. -/
theorem languages_output_order (ms : List LanguageMap) :
    (toRecords (sumObjectsByKeys ms)).map LanguageRecord.language =
      firstSeen (ms.map keysOf).flatten := by
  have h1 : (toRecords (sumObjectsByKeys ms)).map LanguageRecord.language =
      keysOf (sumObjectsByKeys ms) := by
    simp [toRecords, keysOf, List.map_map]
  rw [h1, show sumObjectsByKeys ms = ms.foldl mergeInto [] from rfl,
    keysOf_foldl_mergeInto, firstSeen, foldl_insertNew_flatten]
  rfl

/-- **C9** Frame property: the merge never modifies its input maps — running
the whole `reduce` over the store leaves every input object exactly as it was,
while the fresh accumulator ends up holding `sumObjectsByKeys` of the inputs. -/
theorem merge_frame_property (inputs : List LanguageMap) :
    (runMerge inputs).objs = inputs ∧
    (runMerge inputs).acc = sumObjectsByKeys inputs := by
  have hgen : ∀ (l : List LanguageMap) (s : Store),
      (l.foldl reduceStep s).objs = s.objs ∧
      (l.foldl reduceStep s).acc = l.foldl mergeInto s.acc := by
    intro l
    induction l with
    | nil => intro s; exact ⟨rfl, rfl⟩
    | cons m rest ih =>
      intro s
      rw [List.foldl_cons, List.foldl_cons]
      exact ih (reduceStep s m)
  exact hgen inputs { objs := inputs, acc := [] }

/-- **C10** Non-negativity: when every byte count of every input map is
non-negative, every value of the merged totals — and hence of every emitted
`LanguageRecord` — is non-negative. -/
theorem totals_nonneg (ms : List LanguageMap)
    (h : ∀ m ∈ ms, ∀ p ∈ m, 0 ≤ p.2) :
    (∀ p ∈ sumObjectsByKeys ms, 0 ≤ p.2) ∧
    (∀ r ∈ toRecords (sumObjectsByKeys ms), 0 ≤ r.value) := by
  have htot := nonneg_sumObjectsByKeys ms h
  refine ⟨htot, ?_⟩
  intro r hr
  rcases List.mem_map.mp hr with ⟨p, hp, rfl⟩
  exact htot p hp

/-- Witness for C10 on two maps with non-negative counts (one of them zero). -/
theorem totals_nonneg_witness :
    (∀ m ∈ [[("Go", (100 : Int))], [("Go", 20), ("Rust", 0)]], ∀ p ∈ m, 0 ≤ p.2) ∧
    (∀ p ∈ sumObjectsByKeys [[("Go", (100 : Int))], [("Go", 20), ("Rust", 0)]], 0 ≤ p.2) ∧
    (∀ r ∈ toRecords (sumObjectsByKeys [[("Go", (100 : Int))], [("Go", 20), ("Rust", 0)]]),
      0 ≤ r.value) :=
  ⟨by decide,
    (totals_nonneg [[("Go", 100)], [("Go", 20), ("Rust", 0)]] (by decide)).1,
    (totals_nonneg [[("Go", 100)], [("Go", 20), ("Rust", 0)]] (by decide)).2⟩
